import Mathlib

/-!
Shallow embedding of `src/manajemen_data_mahasiswa.py` (the `Student`
dataclass and the `StudentManager` class) and proofs about the behaviour
of its operations.

Modelling conventions:
* A `Student` record mirrors the dataclass: `id : Int`, `name : String`,
  `age : Int`, `gpa : ℚ` (Python `float` values modelled as exact
  rationals), `major : String`, `email : String`.
* The manager state is its in-memory list `self.students : List Student`;
  the backing JSON file always mirrors this list (every mutating method
  calls `save_students`), so persistence is modelled by the
  `saveStudents`/`loadStudents` pair on a structural JSON value.
* Mutating methods become functions `List Student → ... → List Student × r`;
  query methods are also given `...Op` forms returning the (unchanged)
  state together with the result, mirroring that their Python bodies never
  reassign or mutate `self.students`.
-/

namespace StudentManager

/-- Embeds the `Student` dataclass: fields `id, name, age, gpa, major, email`. -/
structure Student where
  id : Int
  name : String
  age : Int
  gpa : ℚ
  major : String
  email : String
deriving DecidableEq, Repr

/-- `max(xs)` of Python for a nonempty list of ints: `none` on `[]`. -/
def maxList : List Int → Option Int
  | [] => none
  | x :: xs =>
    match maxList xs with
    | none => some x
    | some m => some (max x m)

/-- `max(xs, default=0)` of Python, as used in `add_student` (line 58). -/
def maxDefault (l : List Int) : Int := (maxList l).getD 0

/-- `add_student` (lines 56–62): computes `new_id = max(ids, default=0) + 1`,
appends the new record and returns it. -/
def addStudent (s : List Student) (name : String) (age : Int) (gpa : ℚ)
    (major : String) (email : String) : List Student × Student :=
  let newId := maxDefault (s.map Student.id) + 1
  let newStudent : Student :=
    { id := newId, name := name, age := age, gpa := gpa, major := major, email := email }
  (s ++ [newStudent], newStudent)

/-- `find_student` (lines 64–66): first record whose `id` matches, else `None`. -/
def findStudent (s : List Student) (studentId : Int) : Option Student :=
  s.find? (fun st => st.id == studentId)

/-- `remove_student` (lines 68–75): find the record; if present, remove the
first structurally equal list element (`list.remove`) and return `True`,
else return `False` without touching the list. -/
def removeStudent (s : List Student) (studentId : Int) : List Student × Bool :=
  match findStudent s studentId with
  | some st => (s.erase st, true)
  | none => (s, false)

/-- One keyword argument passed to `update_student`.  The six declared
fields of the dataclass pass the `hasattr` check and carry a value of the
field's type; any other keyword name fails `hasattr` (its value is never
read by the code, so it is not modelled). -/
inductive FieldUpdate where
  | setId (v : Int)
  | setName (v : String)
  | setAge (v : Int)
  | setGpa (v : ℚ)
  | setMajor (v : String)
  | setEmail (v : String)
  | unknownField (fieldName : String)
deriving DecidableEq, Repr

/-- One iteration of the `for field, value in kwargs.items()` loop of
`update_student` (lines 81–83): `setattr` when `hasattr`, no-op otherwise. -/
def applyUpdate (st : Student) : FieldUpdate → Student
  | .setId v => { st with id := v }
  | .setName v => { st with name := v }
  | .setAge v => { st with age := v }
  | .setGpa v => { st with gpa := v }
  | .setMajor v => { st with major := v }
  | .unknownField _ => st
  | .setEmail v => { st with email := v }

/-- Replace the first record whose `id` matches with the given record
(the in-place mutation of the object returned by `find_student`). -/
def setFirstMatch (studentId : Int) (st' : Student) : List Student → List Student
  | [] => []
  | h :: t => if h.id == studentId then st' :: t else h :: setFirstMatch studentId st' t

/-- `update_student` (lines 77–86): find the record; if present, apply every
keyword update in order to it (mutating it inside the list) and return it;
else return `None` and leave the list untouched. -/
def updateStudent (s : List Student) (studentId : Int) (updates : List FieldUpdate) :
    List Student × Option Student :=
  match findStudent s studentId with
  | some st =>
    let st' := updates.foldl applyUpdate st
    (setFirstMatch studentId st' s, some st')
  | none => (s, none)

/-- `list_students` (lines 88–90): returns the list itself. -/
def listStudents (s : List Student) : List Student := s

/-- The loop of Python's `max(iterable, key=...)`: the current best is
replaced only when a later element's key is strictly greater, so the first
maximal element wins ties. -/
def foldBest (best : Student) : List Student → Student
  | [] => best
  | x :: xs => foldBest (if x.gpa > best.gpa then x else best) xs

/-- `get_highest_gpa_student` (lines 92–96): `None` on the empty list, else
Python's `max(self.students, key=lambda s: s.gpa)`. -/
def getHighestGpaStudent : List Student → Option Student
  | [] => none
  | h :: t => some (foldBest h t)

/-- `get_average_gpa` (lines 98–102): `0.0` on the empty list, else
`sum(gpa) / len(students)`. -/
def getAverageGpa (s : List Student) : ℚ :=
  if s = [] then 0 else (s.map Student.gpa).sum / s.length

/-- `filter_students_by_major` (lines 104–106): case-insensitive exact
match on the `major` field, preserving list order. -/
def filterStudentsByMajor (s : List Student) (major : String) : List Student :=
  s.filter (fun st => st.major.toLower == major.toLower)

/-- `find_student` as a state-passing operation: its body only reads
`self.students`, so the state component is returned unchanged. -/
def findStudentOp (s : List Student) (studentId : Int) :
    List Student × Option Student :=
  (s, findStudent s studentId)

/-- `list_students` as a state-passing operation. -/
def listStudentsOp (s : List Student) : List Student × List Student :=
  (s, listStudents s)

/-- `get_highest_gpa_student` as a state-passing operation. -/
def getHighestGpaStudentOp (s : List Student) : List Student × Option Student :=
  (s, getHighestGpaStudent s)

/-- `get_average_gpa` as a state-passing operation. -/
def getAverageGpaOp (s : List Student) : List Student × ℚ :=
  (s, getAverageGpa s)

/-- `filter_students_by_major` as a state-passing operation. -/
def filterStudentsByMajorOp (s : List Student) (major : String) :
    List Student × List Student :=
  (s, filterStudentsByMajor s major)

/-!  JSON persistence (`save_students`, lines 51–54, and `load_students`,
lines 45–49).  A structural JSON value models the parsed content of the
backing file; `json.dump`/`json.load` write Python `int` and `float`
values in distinct forms and read them back at the same type, so integer
and real numbers get separate constructors. -/

/-- Structural JSON value. -/
inductive Json where
  | jint (n : Int)
  | jnum (q : ℚ)
  | jstr (s : String)
  | jarr (items : List Json)
  | jobj (fields : List (String × Json))

/-- `asdict(student)` (line 54): the six dataclass fields in declaration
order, `id`/`age` as JSON integers, `gpa` as a JSON real, the rest strings. -/
def studentToJson (st : Student) : Json :=
  .jobj [("id", .jint st.id), ("name", .jstr st.name), ("age", .jint st.age),
         ("gpa", .jnum st.gpa), ("major", .jstr st.major), ("email", .jstr st.email)]

/-- `save_students` (lines 51–54): a JSON array of the records' dicts. -/
def saveStudents (s : List Student) : Json :=
  .jarr (s.map studentToJson)

/-- First value bound to a key in a JSON object (objects produced by
`json.load` have unique keys). -/
def lookupField (fields : List (String × Json)) (k : String) : Option Json :=
  (fields.find? (fun p => p.1 == k)).map Prod.snd

/-- `Student(**student)` (line 49): constructing the dataclass from a dict
succeeds exactly when the object carries the six dataclass fields at their
declared types and no extra key; otherwise Python raises, modelled `none`. -/
def studentOfJson : Json → Option Student
  | .jobj fields =>
    match lookupField fields "id", lookupField fields "name", lookupField fields "age",
          lookupField fields "gpa", lookupField fields "major", lookupField fields "email" with
    | some (.jint i), some (.jstr n), some (.jint a), some (.jnum g),
      some (.jstr m), some (.jstr e) =>
      if fields.length = 6 then some ⟨i, n, a, g, m, e⟩ else none
    | _, _, _, _, _, _ => none
  | _ => none

/-- The list comprehension of `load_students` (line 49): the first record
that fails to construct aborts the whole load. -/
def loadList : List Json → Option (List Student)
  | [] => some []
  | j :: js =>
    match studentOfJson j, loadList js with
    | some st, some sts => some (st :: sts)
    | _, _ => none

/-- `load_students` (lines 45–49): the file must hold a JSON array whose
elements all construct `Student`s. -/
def loadStudents : Json → Option (List Student)
  | .jarr items => loadList items
  | _ => none

/-!  Machinery for reasoning about sequences of calls. -/

/-- The client-supplied arguments of one `add_student` call. -/
structure AddInput where
  name : String
  age : Int
  gpa : ℚ
  major : String
  email : String
deriving DecidableEq, Repr

/-- `add_student` applied to a bundled argument record. -/
def addInput (s : List Student) (i : AddInput) : List Student × Student :=
  addStudent s i.name i.age i.gpa i.major i.email

/-- The ids assigned by a sequence of `add_student` calls run from state `s`. -/
def assignedIds (s : List Student) : List AddInput → List Int
  | [] => []
  | i :: is => (addInput s i).2.id :: assignedIds (addInput s i).1 is

/-- A mutating call on the manager: an `add_student` or a `remove_student`. -/
inductive Op where
  | add (i : AddInput)
  | remove (studentId : Int)
deriving DecidableEq, Repr

/-- Run one mutating call, keeping only the state. -/
def runOp (s : List Student) : Op → List Student
  | .add i => (addInput s i).1
  | .remove sid => (removeStudent s sid).1

/-- Run a sequence of mutating calls. -/
def runOps (s : List Student) (ops : List Op) : List Student :=
  ops.foldl runOp s

/-- The ids assigned to new records by the `add` calls of a mixed
add/remove call sequence run from state `s`. -/
def assignedIdsOps (s : List Student) : List Op → List Int
  | [] => []
  | .add i :: ops => (addInput s i).2.id :: assignedIdsOps (addInput s i).1 ops
  | .remove sid :: ops => assignedIdsOps (removeStudent s sid).1 ops

/-- `[start, start+1, …, start+n-1]`: `n` consecutive integers. -/
def intRange (start : Int) : Nat → List Int
  | 0 => []
  | n + 1 => start :: intRange (start + 1) n

/-- A concrete student used in witnesses and counterexamples. -/
def stAna : Student :=
  { id := 1, name := "Ana", age := 20, gpa := 3, major := "CS", email := "ana@u.edu" }

/-- A second concrete student used in witnesses and counterexamples. -/
def stBen : Student :=
  { id := 2, name := "Ben", age := 21, gpa := 4, major := "Math", email := "ben@u.edu" }

/-- Concrete `add_student` arguments used in counterexamples. -/
def inCarl : AddInput :=
  { name := "Carl", age := 22, gpa := 2, major := "CS", email := "carl@u.edu" }

/-!  Helper lemmas about `maxList` / `maxDefault`. -/

theorem maxList_eq_none_iff {l : List Int} : maxList l = none ↔ l = [] := by
  cases l with
  | nil => simp [maxList]
  | cons x xs => cases h : maxList xs <;> simp [maxList, h]

theorem le_maxDefault_of_mem {l : List Int} {x : Int} (hx : x ∈ l) : x ≤ maxDefault l := by
  induction l with
  | nil => cases hx
  | cons y ys ih =>
    rcases List.mem_cons.mp hx with rfl | hmem
    · cases h : maxList ys with
      | none => simp [maxDefault, maxList, h]
      | some m =>
        simp only [maxDefault, maxList, h, Option.getD_some]
        exact le_max_left _ _
    · cases h : maxList ys with
      | none =>
        rw [maxList_eq_none_iff] at h
        subst h
        cases hmem
      | some m =>
        have hle : x ≤ maxDefault ys := ih hmem
        simp only [maxDefault, h, Option.getD_some] at hle
        simp only [maxDefault, maxList, h, Option.getD_some]
        exact le_trans hle (le_max_right _ _)

theorem maxList_append_singleton (l : List Int) (y : Int) :
    maxList (l ++ [y]) =
      some (match maxList l with | none => y | some m => max m y) := by
  induction l with
  | nil => simp [maxList]
  | cons x xs ih =>
    cases h : maxList xs with
    | none =>
      rw [maxList_eq_none_iff] at h
      subst h
      simp [maxList]
    | some m =>
      have ih2 : maxList (xs ++ [y]) = some (max m y) := by rw [ih, h]
      have hx : maxList (x :: xs) = some (max x m) := by simp [maxList, h]
      simp only [List.cons_append, maxList, List.append_eq, h, ih2, hx]
      rw [max_assoc]

theorem maxDefault_append_newId (l : List Int) :
    maxDefault (l ++ [maxDefault l + 1]) = maxDefault l + 1 := by
  cases h : maxList l with
  | none =>
    rw [maxList_eq_none_iff] at h
    subst h
    simp [maxDefault, maxList]
  | some m =>
    have h2 := maxList_append_singleton l (maxDefault l + 1)
    rw [h] at h2
    simp only [maxDefault, h, Option.getD_some] at h2 ⊢
    rw [h2, Option.getD_some, max_eq_right (by omega)]

/-!  Helper lemmas about `findStudent`. -/

theorem findStudent_eq_none_iff {s : List Student} {i : Int} :
    findStudent s i = none ↔ ∀ st ∈ s, st.id ≠ i := by
  simp [findStudent, List.find?_eq_none]

theorem findStudent_some {s : List Student} {i : Int} {st : Student}
    (h : findStudent s i = some st) : st ∈ s ∧ st.id = i := by
  refine ⟨List.mem_of_find?_eq_some h, ?_⟩
  have hp := List.find?_some h
  simpa using hp

theorem findStudent_decomp {s : List Student} {i : Int} {st : Student}
    (h : findStudent s i = some st) :
    ∃ pre post, s = pre ++ st :: post ∧ (∀ x ∈ pre, x.id ≠ i) ∧
      s.erase st = pre ++ post := by
  induction s with
  | nil => simp [findStudent] at h
  | cons h0 t ih =>
    by_cases hid : h0.id = i
    · have hfind : findStudent (h0 :: t) i = some h0 := by
        simp [findStudent, List.find?_cons, hid]
      rw [hfind] at h
      obtain rfl := Option.some.inj h
      exact ⟨[], t, by simp, by simp, by simp⟩
    · have hfind : findStudent (h0 :: t) i = findStudent t i := by
        simp [findStudent, List.find?_cons, hid]
      rw [hfind] at h
      obtain ⟨pre, post, hdec, hpre, herase⟩ := ih h
      have hstid : st.id = i := (findStudent_some h).2
      have hne : h0 ≠ st := fun he => hid (he ▸ hstid)
      refine ⟨h0 :: pre, post, by simp [hdec], ?_, ?_⟩
      · intro x hx
        rcases List.mem_cons.mp hx with rfl | hx'
        · exact hid
        · exact hpre x hx'
      · rw [List.erase_cons_tail, herase]
        · simp
        · simp [hne, Ne.symm hne, bne_iff_ne]

/-!  Helper lemmas about `setFirstMatch` and `applyUpdate`. -/

theorem setFirstMatch_of_none {s : List Student} {i : Int} (st' : Student)
    (h : ∀ x ∈ s, x.id ≠ i) : setFirstMatch i st' s = s := by
  induction s with
  | nil => rfl
  | cons h0 t ih =>
    have h0ne : h0.id ≠ i := h h0 (List.mem_cons_self _ _)
    simp only [setFirstMatch, beq_iff_eq, h0ne, if_false]
    rw [ih fun x hx => h x (List.mem_cons_of_mem _ hx)]

theorem setFirstMatch_decomp {pre post : List Student} {st : Student} {i : Int}
    (st' : Student) (hpre : ∀ x ∈ pre, x.id ≠ i) (hst : st.id = i) :
    setFirstMatch i st' (pre ++ st :: post) = pre ++ st' :: post := by
  induction pre with
  | nil => simp [setFirstMatch, hst]
  | cons p ps ih =>
    have hpne : p.id ≠ i := hpre p (List.mem_cons_self _ _)
    simp only [List.cons_append, setFirstMatch, beq_iff_eq, hpne, if_false, List.append_eq]
    rw [ih fun x hx => hpre x (List.mem_cons_of_mem _ hx)]

theorem setFirstMatch_map_id {s : List Student} {i : Int} {st' : Student}
    (h : st'.id = i) : (setFirstMatch i st' s).map Student.id = s.map Student.id := by
  induction s with
  | nil => rfl
  | cons h0 t ih =>
    by_cases hid : h0.id = i
    · simp [setFirstMatch, hid, h]
    · simp [setFirstMatch, hid, ih]

theorem applyUpdate_id_of_ne_setId {st : Student} {u : FieldUpdate}
    (h : ∀ v, u ≠ .setId v) : (applyUpdate st u).id = st.id := by
  cases u with
  | setId v => exact absurd rfl (h v)
  | setName v => rfl
  | setAge v => rfl
  | setGpa v => rfl
  | setMajor v => rfl
  | setEmail v => rfl
  | unknownField f => rfl

theorem foldl_applyUpdate_id {updates : List FieldUpdate} {st : Student}
    (h : ∀ u ∈ updates, ∀ v, u ≠ .setId v) :
    (updates.foldl applyUpdate st).id = st.id := by
  induction updates generalizing st with
  | nil => rfl
  | cons u us ih =>
    rw [List.foldl_cons, ih fun x hx => h x (List.mem_cons_of_mem _ hx),
      applyUpdate_id_of_ne_setId (h u (List.mem_cons_self _ _))]

/-!  Helper lemma about `foldBest`. -/

theorem foldBest_spec (t : List Student) (h : Student) :
    ∃ pre post,
      h :: t = pre ++ foldBest h t :: post ∧
      (∀ x ∈ pre, x.gpa < (foldBest h t).gpa) ∧
      (∀ x ∈ h :: t, x.gpa ≤ (foldBest h t).gpa) := by
  induction t generalizing h with
  | nil => exact ⟨[], [], by simp [foldBest], by simp, by simp [foldBest]⟩
  | cons y t' ih =>
    by_cases hy : y.gpa > h.gpa
    · have hstep : foldBest h (y :: t') = foldBest y t' := by
        simp [foldBest, hy]
      obtain ⟨pre, post, hdec, hpre, hall⟩ := ih y
      have hyle : y.gpa ≤ (foldBest y t').gpa := hall y (List.mem_cons_self _ _)
      refine ⟨h :: pre, post, ?_, ?_, ?_⟩
      · rw [hstep, List.cons_append, ← hdec]
      · intro x hx
        rcases List.mem_cons.mp hx with rfl | hx'
        · rw [hstep]; exact lt_of_lt_of_le hy hyle
        · rw [hstep]; exact hpre x hx'
      · intro x hx
        rw [hstep]
        rcases List.mem_cons.mp hx with rfl | hx'
        · exact le_of_lt (lt_of_lt_of_le hy hyle)
        · exact hall x hx'
    · have hstep : foldBest h (y :: t') = foldBest h t' := by
        simp [foldBest, hy]
      have hyh : y.gpa ≤ h.gpa := not_lt.mp hy
      obtain ⟨pre, post, hdec, hpre, hall⟩ := ih h
      cases pre with
      | nil =>
        simp only [List.nil_append] at hdec
        injection hdec with h1 h2
        refine ⟨[], y :: t', ?_, by simp, ?_⟩
        · simp only [List.nil_append]
          rw [hstep, ← h1]
        · intro x hx
          rw [hstep, ← h1]
          rcases List.mem_cons.mp hx with rfl | hx'
          · exact le_refl _
          · rcases List.mem_cons.mp hx' with rfl | hx''
            · exact hyh
            · have hx3 := hall x (List.mem_cons_of_mem _ hx'')
              rw [← h1] at hx3
              exact hx3
      | cons p ps =>
        simp only [List.cons_append] at hdec
        injection hdec with h1 h2
        subst h1
        refine ⟨h :: y :: ps, post, ?_, ?_, ?_⟩
        · rw [hstep]
          simp only [List.cons_append]
          rw [← h2]
        · intro x hx
          rw [hstep]
          have hhlt : h.gpa < (foldBest h t').gpa := hpre h (List.mem_cons_self _ _)
          rcases List.mem_cons.mp hx with rfl | hx'
          · exact hhlt
          · rcases List.mem_cons.mp hx' with rfl | hx''
            · exact lt_of_le_of_lt hyh hhlt
            · exact hpre x (List.mem_cons_of_mem _ hx'')
        · intro x hx
          rw [hstep]
          rcases List.mem_cons.mp hx with rfl | hx'
          · exact hall x (List.mem_cons_self _ _)
          · rcases List.mem_cons.mp hx' with rfl | hx''
            · exact le_trans hyh (hall h (List.mem_cons_self _ _))
            · exact hall x (List.mem_cons_of_mem _ hx'')

theorem maxList_mem : ∀ {l : List Int} {m : Int}, maxList l = some m → m ∈ l := by
  intro l
  induction l with
  | nil => intro m h; simp [maxList] at h
  | cons x xs ih =>
    intro m h
    cases hx : maxList xs with
    | none =>
      simp only [maxList, hx, Option.some.injEq] at h
      subst h
      exact List.mem_cons_self _ _
    | some m' =>
      simp only [maxList, hx, Option.some.injEq] at h
      subst h
      rcases max_choice x m' with hc | hc
      · rw [hc]; exact List.mem_cons_self _ _
      · rw [hc]; exact List.mem_cons_of_mem _ (ih hx)

theorem maxDefault_mem {l : List Int} (h : l ≠ []) : maxDefault l ∈ l := by
  cases hm : maxList l with
  | none => exact absurd (maxList_eq_none_iff.mp hm) h
  | some m =>
    have hmem : m ∈ l := maxList_mem hm
    simpa [maxDefault, hm] using hmem

/-- C3: `add_student` appends the new record at the end of the collection,
returns it with the supplied field values, and assigns it the id
`1 + max(existing ids)` — i.e. `1` on an empty store, and otherwise one
more than an id that occurs in the store and bounds every id in it. -/
theorem addStudent_appends_with_max_succ_id (s : List Student)
    (name : String) (age : Int) (gpa : ℚ) (major : String) (email : String) :
    (addStudent s name age gpa major email).1
        = s ++ [(addStudent s name age gpa major email).2] ∧
    (addStudent s name age gpa major email).2.name = name ∧
    (addStudent s name age gpa major email).2.age = age ∧
    (addStudent s name age gpa major email).2.gpa = gpa ∧
    (addStudent s name age gpa major email).2.major = major ∧
    (addStudent s name age gpa major email).2.email = email ∧
    (s = [] → (addStudent s name age gpa major email).2.id = 1) ∧
    (s ≠ [] →
      (addStudent s name age gpa major email).2.id - 1 ∈ s.map Student.id ∧
      ∀ x ∈ s.map Student.id, x ≤ (addStudent s name age gpa major email).2.id - 1) := by
  refine ⟨rfl, rfl, rfl, rfl, rfl, rfl, ?_, ?_⟩
  · intro hs
    subst hs
    rfl
  · intro hs
    have hids : s.map Student.id ≠ [] := by simpa using hs
    have hid : (addStudent s name age gpa major email).2.id
        = maxDefault (s.map Student.id) + 1 := rfl
    rw [hid]
    constructor
    · simpa using maxDefault_mem hids
    · intro x hx
      have := le_maxDefault_of_mem hx
      omega

/-- C6: `get_highest_gpa_student` returns `None` exactly on the empty
store; otherwise it returns the first record of the store (in store order)
whose gpa bounds the gpa of every record — the first maximal element. -/
theorem getHighestGpaStudent_first_max (s : List Student) :
    (getHighestGpaStudent s = none ↔ s = []) ∧
    (∀ st, getHighestGpaStudent s = some st →
      ∃ pre post, s = pre ++ st :: post ∧
        (∀ x ∈ pre, x.gpa < st.gpa) ∧
        (∀ x ∈ s, x.gpa ≤ st.gpa)) := by
  constructor
  · cases s <;> simp [getHighestGpaStudent]
  · intro st hst
    cases s with
    | nil => simp [getHighestGpaStudent] at hst
    | cons h t =>
      simp only [getHighestGpaStudent, Option.some.injEq] at hst
      subst hst
      exact foldBest_spec t h

/-- C7: `get_average_gpa` returns exactly `0` on the empty store and the
arithmetic mean of the gpa values otherwise; concretely `7/2` (= 3.5) on a
two-record store holding gpas `3` and `4`. -/
theorem getAverageGpa_is_mean :
    getAverageGpa [] = 0 ∧
    (∀ s : List Student, s ≠ [] →
      getAverageGpa s * (s.length : ℚ) = (s.map Student.gpa).sum) ∧
    getAverageGpa [⟨1, "Ana", 20, 3, "CS", "ana@u.edu"⟩,
                   ⟨2, "Ben", 21, 4, "CS", "ben@u.edu"⟩] = 7/2 := by
  refine ⟨by simp [getAverageGpa], ?_, by simp [getAverageGpa]; norm_num⟩
  intro s hs
  have hlen : (s.length : ℚ) ≠ 0 := by
    simpa [List.length_eq_zero] using hs
  simp only [getAverageGpa, hs, if_false]
  exact div_mul_cancel₀ _ hlen

/-- Constructing a `Student` back from its own `asdict` image succeeds and
returns the same record. -/
theorem studentOfJson_studentToJson (st : Student) :
    studentOfJson (studentToJson st) = some st := rfl

theorem loadList_map_studentToJson (s : List Student) :
    loadList (s.map studentToJson) = some s := by
  induction s with
  | nil => rfl
  | cons st t ih =>
    simp only [List.map_cons, loadList, studentOfJson_studentToJson, ih]

/-- C8: the JSON persistence round-trip is exact — `load_students` applied
to the value written by `save_students` recovers the record list
structurally unchanged, for every record list. -/
theorem save_load_roundtrip (s : List Student) :
    loadStudents (saveStudents s) = some s := by
  simp only [saveStudents, loadStudents, loadList_map_studentToJson]

/-- C9: not-found and empty-store conditions are ordinary total returns,
never exceptions: on an id matching no record, `find_student` returns
`None`, `update_student` returns `None` leaving the store unchanged and
`remove_student` returns `False` leaving the store unchanged; on the empty
store `get_highest_gpa_student` returns `None` and `get_average_gpa`
returns `0`. -/
theorem not_found_and_empty_are_ordinary_returns (s : List Student) (i : Int)
    (h : ∀ st ∈ s, st.id ≠ i) :
    findStudent s i = none ∧
    (∀ updates, updateStudent s i updates = (s, none)) ∧
    removeStudent s i = (s, false) ∧
    getHighestGpaStudent [] = none ∧
    getAverageGpa [] = 0 := by
  have hf : findStudent s i = none := findStudent_eq_none_iff.mpr h
  exact ⟨hf, fun updates => by simp [updateStudent, hf],
    by simp [removeStudent, hf], rfl, by simp [getAverageGpa]⟩

/-- Witness for C9 at the one-record store `[stAna]` and the absent id 5. -/
theorem not_found_and_empty_witness :
    findStudent [stAna] 5 = none ∧
    updateStudent [stAna] 5 [FieldUpdate.setName "Zoe"] = ([stAna], none) ∧
    removeStudent [stAna] 5 = ([stAna], false) ∧
    getHighestGpaStudent [] = none ∧
    getAverageGpa [] = 0 := by
  have h := not_found_and_empty_are_ordinary_returns [stAna] 5 (by decide)
  exact ⟨h.1, h.2.1 [FieldUpdate.setName "Zoe"], h.2.2.1, h.2.2.2.1, h.2.2.2.2⟩

theorem assignedIds_eq_intRange (inputs : List AddInput) :
    ∀ s : List Student,
      assignedIds s inputs
        = intRange (maxDefault (s.map Student.id) + 1) inputs.length := by
  induction inputs with
  | nil => intro s; rfl
  | cons i is ih =>
    intro s
    have hids : (addInput s i).1.map Student.id
        = s.map Student.id ++ [maxDefault (s.map Student.id) + 1] := by
      simp [addInput, addStudent]
    have htail := ih (addInput s i).1
    rw [hids, maxDefault_append_newId] at htail
    simp only [assignedIds, List.length_cons, intRange]
    rw [htail]
    rfl

theorem intRange_chain (n : Nat) :
    ∀ start : Int, List.Chain' (· < ·) (intRange start n) := by
  induction n with
  | zero => intro start; simp [intRange]
  | succ m ih =>
    intro start
    cases m with
    | zero => simp [intRange]
    | succ k =>
      show List.Chain' (· < ·) (start :: (start + 1) :: intRange (start + 1 + 1) k)
      exact List.chain'_cons.mpr ⟨by omega, ih (start + 1)⟩

/-- C1 (amended): a sequence of `n` `add_student` calls run from the empty
store with no interleaved removes assigns exactly the ids `1, 2, …, n`:
strictly increasing from 1, no gaps, no reuse.  (With interleaved removes
the next id is still `1 + max(existing ids)`, so removing the current
maximal id makes the next add reuse it — see the counterexample.) -/
theorem assignedIds_from_empty_consecutive (inputs : List AddInput) :
    assignedIds [] inputs = intRange 1 inputs.length ∧
    List.Chain' (· < ·) (assignedIds [] inputs) := by
  have h := assignedIds_eq_intRange inputs []
  simp only [List.map_nil] at h
  have h0 : maxDefault [] = 0 := rfl
  rw [h0] at h
  exact ⟨by simpa using h, by rw [show (0 : Int) + 1 = 1 by norm_num] at h; rw [h]; exact intRange_chain _ _⟩

/-- C1 counterexample: interleaving a remove of the current maximal id
makes the next add reuse that id.  The call sequence add, add, remove 2,
add assigns the ids `1, 2, 2`: id 2 is reused and the sequence is not
strictly increasing. -/
theorem add_remove_add_reuses_id :
    assignedIdsOps [] [Op.add inCarl, Op.add inCarl, Op.remove 2, Op.add inCarl]
      = [1, 2, 2] ∧
    ¬ List.Chain' (· < ·)
        (assignedIdsOps [] [Op.add inCarl, Op.add inCarl, Op.remove 2, Op.add inCarl]) := by
  have h1 : assignedIdsOps [] [Op.add inCarl, Op.add inCarl, Op.remove 2, Op.add inCarl]
      = [1, 2, 2] := by decide
  refine ⟨h1, ?_⟩
  rw [h1]
  intro hc
  have h2 := (List.chain'_cons.mp (List.chain'_cons.mp hc).2).1
  norm_num at h2

/-- C2 (amended): `add_student` and `remove_student` preserve pairwise
distinct ids from any store whose ids are pairwise distinct, and
`update_student` preserves them provided no supplied update sets the `id`
field itself.  (An `id` update CAN duplicate an existing id — see the
counterexample — so the claim's "any field updates" fails.) -/
theorem store_ops_preserve_distinct_ids (s : List Student)
    (h : (s.map Student.id).Nodup) :
    (∀ i : AddInput, ((addInput s i).1.map Student.id).Nodup) ∧
    (∀ sid : Int, ((removeStudent s sid).1.map Student.id).Nodup) ∧
    (∀ sid updates, (∀ u ∈ updates, ∀ v, u ≠ FieldUpdate.setId v) →
      ((updateStudent s sid updates).1.map Student.id).Nodup) := by
  refine ⟨?_, ?_, ?_⟩
  · intro i
    have hids : (addInput s i).1.map Student.id
        = s.map Student.id ++ [maxDefault (s.map Student.id) + 1] := by
      simp [addInput, addStudent]
    rw [hids]
    have hnotmem : maxDefault (s.map Student.id) + 1 ∉ s.map Student.id := by
      intro hmem
      have := le_maxDefault_of_mem hmem
      omega
    simp [List.nodup_append, h, hnotmem]
  · intro sid
    cases hf : findStudent s sid with
    | none => simpa [removeStudent, hf] using h
    | some st =>
      have hsub : ((s.erase st).map Student.id).Sublist (s.map Student.id) :=
        (List.erase_sublist st s).map Student.id
      simpa [removeStudent, hf] using h.sublist hsub
  · intro sid updates hu
    cases hf : findStudent s sid with
    | none => simpa [updateStudent, hf] using h
    | some st =>
      have hid : (updates.foldl applyUpdate st).id = st.id := foldl_applyUpdate_id hu
      have hstid : st.id = sid := (findStudent_some hf).2
      have hmap : ((updateStudent s sid updates).1.map Student.id) = s.map Student.id := by
        simp only [updateStudent, hf]
        exact setFirstMatch_map_id (by rw [hid, hstid])
      rw [hmap]
      exact h

/-- Witness for C2 (amended) at the two-record store `[stAna, stBen]`,
adding `inCarl`, removing id 1, and updating id 1 with a gpa update. -/
theorem store_ops_preserve_distinct_ids_witness :
    ((addInput [stAna, stBen] inCarl).1.map Student.id).Nodup ∧
    ((removeStudent [stAna, stBen] 1).1.map Student.id).Nodup ∧
    ((updateStudent [stAna, stBen] 1 [FieldUpdate.setGpa 2]).1.map Student.id).Nodup := by
  have h := store_ops_preserve_distinct_ids [stAna, stBen] (by decide)
  refine ⟨h.1 inCarl, h.2.1 1, h.2.2 1 [FieldUpdate.setGpa 2] ?_⟩
  intro u hu v hv
  rw [hv] at hu
  simp at hu

/-- C2 counterexample: `update_student` accepts `id` as a field update
(`hasattr` is true for it), so on the store `[stAna (id 1), stBen (id 2)]`
the call `update_student(1, id=2)` produces the id list `[2, 2]`: the ids
are no longer pairwise distinct. -/
theorem update_id_breaks_uniqueness :
    (updateStudent [stAna, stBen] 1 [FieldUpdate.setId 2]).1.map Student.id = [2, 2] ∧
    ¬ ((updateStudent [stAna, stBen] 1 [FieldUpdate.setId 2]).1.map Student.id).Nodup := by
  exact ⟨by decide, by decide⟩

theorem findStudent_append_first (pre post : List Student) (st : Student)
    (i : Int) (hpre : ∀ x ∈ pre, x.id ≠ i) (hst : st.id = i) :
    findStudent (pre ++ st :: post) i = some st := by
  induction pre with
  | nil => simp [findStudent, List.find?_cons, hst]
  | cons p ps ih =>
    have hpne : p.id ≠ i := hpre p (List.mem_cons_self _ _)
    have hb : (p.id == i) = false := beq_eq_false_iff_ne.mpr hpne
    simp only [List.cons_append, findStudent, List.find?_cons, hb]
    exact ih fun x hx => hpre x (List.mem_cons_of_mem _ hx)

/-- C4: on a store whose first record carrying the given id is `st`,
`update_student` with a single known field name replaces exactly that
field of that record — every other field of it and every other record is
unchanged — and returns the updated record; an unknown field name leaves
the store untouched and still returns the found record; on an id that no
record carries, it returns `None` and changes nothing.  (No case raises.) -/
theorem updateStudent_single_field (pre post : List Student) (st : Student)
    (i : Int) (u : FieldUpdate)
    (hpre : ∀ x ∈ pre, x.id ≠ i) (hst : st.id = i) :
    (updateStudent (pre ++ st :: post) i [u]).1 = pre ++ applyUpdate st u :: post ∧
    (updateStudent (pre ++ st :: post) i [u]).2 = some (applyUpdate st u) ∧
    (∀ v, applyUpdate st (.setId v) = { st with id := v }) ∧
    (∀ v, applyUpdate st (.setName v) = { st with name := v }) ∧
    (∀ v, applyUpdate st (.setAge v) = { st with age := v }) ∧
    (∀ v, applyUpdate st (.setGpa v) = { st with gpa := v }) ∧
    (∀ v, applyUpdate st (.setMajor v) = { st with major := v }) ∧
    (∀ v, applyUpdate st (.setEmail v) = { st with email := v }) ∧
    (∀ f, applyUpdate st (.unknownField f) = st) ∧
    (∀ f, updateStudent (pre ++ st :: post) i [FieldUpdate.unknownField f]
        = (pre ++ st :: post, some st)) ∧
    (∀ s' : List Student, ∀ j : Int, (∀ x ∈ s', x.id ≠ j) →
      ∀ us, updateStudent s' j us = (s', none)) := by
  have hfind : findStudent (pre ++ st :: post) i = some st :=
    findStudent_append_first pre post st i hpre hst
  refine ⟨?_, ?_, fun v => rfl, fun v => rfl, fun v => rfl, fun v => rfl,
    fun v => rfl, fun v => rfl, fun f => rfl, ?_, ?_⟩
  · simp only [updateStudent, hfind, List.foldl_cons, List.foldl_nil]
    exact setFirstMatch_decomp _ hpre hst
  · simp only [updateStudent, hfind, List.foldl_cons, List.foldl_nil]
  · intro f
    simp only [updateStudent, hfind, List.foldl_cons, List.foldl_nil, applyUpdate]
    rw [setFirstMatch_decomp st hpre hst]
  · intro s' j hall us
    have hf : findStudent s' j = none := findStudent_eq_none_iff.mpr hall
    simp [updateStudent, hf]

/-- Witness for C4 on the store `[stAna, stBen]`: a gpa update of id 2, an
unknown field name for id 2, and a missed id 9. -/
theorem updateStudent_single_field_witness :
    (updateStudent [stAna, stBen] 2 [FieldUpdate.setGpa 1]).1
        = [stAna, { stBen with gpa := 1 }] ∧
    (updateStudent [stAna, stBen] 2 [FieldUpdate.setGpa 1]).2
        = some { stBen with gpa := 1 } ∧
    applyUpdate stBen (.setGpa 1) = { stBen with gpa := 1 } ∧
    applyUpdate stBen (.unknownField "nickname") = stBen ∧
    updateStudent [stAna, stBen] 2 [FieldUpdate.unknownField "nickname"]
        = ([stAna, stBen], some stBen) ∧
    updateStudent [stAna, stBen] 9 [FieldUpdate.setGpa 1] = ([stAna, stBen], none) := by
  have h := updateStudent_single_field [stAna] [] stBen 2 (FieldUpdate.setGpa 1)
    (by decide) (by decide)
  exact ⟨h.1, h.2.1, h.2.2.2.2.2.1 1, h.2.2.2.2.2.2.2.2.1 "nickname",
    h.2.2.2.2.2.2.2.2.2.1 "nickname",
    h.2.2.2.2.2.2.2.2.2.2 [stAna, stBen] 9 (by decide) [FieldUpdate.setGpa 1]⟩

/-- C5 (amended): `remove_student` returns `True` and removes the first
record carrying the id when one exists (the record count drops by one),
and returns `False` leaving the store unchanged otherwise; and — provided
the store's ids are pairwise distinct, which an `id`-field update can
break — `find_student` run immediately after the removal returns `None`.
-/
theorem removeStudent_spec (s : List Student) (i : Int)
    (hnodup : (s.map Student.id).Nodup) :
    (∀ st, findStudent s i = some st →
      (removeStudent s i).2 = true ∧
      (removeStudent s i).1 = s.erase st ∧
      (removeStudent s i).1.length + 1 = s.length ∧ st ∈ s ∧ st.id = i) ∧
    (findStudent s i = none → removeStudent s i = (s, false)) ∧
    findStudent (removeStudent s i).1 i = none := by
  cases hf : findStudent s i with
  | none =>
    refine ⟨fun st hst => Option.noConfusion hst, fun _ => ?_, ?_⟩
    · simp [removeStudent, hf]
    · simp [removeStudent, hf]
  | some st =>
    obtain ⟨pre, post, hdec, hpre, herase⟩ := findStudent_decomp hf
    obtain ⟨hmem, hstid⟩ := findStudent_some hf
    refine ⟨?_, fun hn => Option.noConfusion hn, ?_⟩
    · intro st' hst'
      obtain rfl : st = st' := Option.some.inj hst'
      refine ⟨by simp [removeStudent, hf], by simp [removeStudent, hf], ?_, hmem, hstid⟩
      simp only [removeStudent, hf]
      rw [herase, hdec]
      simp
      omega
    · simp only [removeStudent, hf]
      rw [herase]
      rw [hdec] at hnodup
      have hpost : ∀ x ∈ post, x.id ≠ i := by
        intro x hx hxid
        have h2 : ((pre ++ st :: post).map Student.id).Nodup := hnodup
        rw [List.map_append, List.map_cons] at h2
        have h3 : st.id ∉ post.map Student.id := (List.nodup_cons.mp h2.of_append_right).1
        apply h3
        have hx2 : x.id ∈ post.map Student.id := List.mem_map_of_mem _ hx
        rwa [hxid, ← hstid] at hx2
      rw [findStudent_eq_none_iff]
      intro x hx
      rcases List.mem_append.mp hx with hx' | hx'
      · exact hpre x hx'
      · exact hpost x hx'

/-- C5 counterexample: after `update_student(1, id=2)` on
`[stAna (id 1), stBen (id 2)]` the store holds two records with id 2;
`remove_student(2)` then returns `True` but deletes only the first match,
and `find_student(2)` run immediately afterwards still returns `stBen`
instead of `None`. -/
theorem remove_then_find_after_id_update :
    (removeStudent (updateStudent [stAna, stBen] 1 [FieldUpdate.setId 2]).1 2).2 = true ∧
    findStudent (removeStudent (updateStudent [stAna, stBen] 1 [FieldUpdate.setId 2]).1 2).1 2
      = some stBen := by
  exact ⟨by decide, by decide⟩

/-- Witness for C5 on the store `[stAna, stBen]`: removing the present id
1 succeeds and shrinks the store, and a find of id 1 afterwards is `None`.
-/
theorem removeStudent_spec_witness :
    (removeStudent [stAna, stBen] 1).2 = true ∧
    (removeStudent [stAna, stBen] 1).1 = [stAna, stBen].erase stAna ∧
    (removeStudent [stAna, stBen] 1).1.length + 1 = [stAna, stBen].length ∧
    stAna ∈ [stAna, stBen] ∧ stAna.id = 1 ∧
    findStudent (removeStudent [stAna, stBen] 1).1 1 = none := by
  have h := removeStudent_spec [stAna, stBen] 1 (by decide)
  have h1 := h.1 stAna (by decide)
  exact ⟨h1.1, h1.2.1, h1.2.2.1, h1.2.2.2.1, h1.2.2.2.2, h.2.2⟩

/-- C10: every query operation — find, list, highestGPA, averageGPA and
filterByMajor — leaves the record collection exactly as it was. -/
theorem queries_leave_store_unchanged (s : List Student) (i : Int) (m : String) :
    (findStudentOp s i).1 = s ∧
    (listStudentsOp s).1 = s ∧
    (getHighestGpaStudentOp s).1 = s ∧
    (getAverageGpaOp s).1 = s ∧
    (filterStudentsByMajorOp s m).1 = s :=
  ⟨rfl, rfl, rfl, rfl, rfl⟩
